import Mathlib

/-!
Verification development for the `combine-code-file-to-txt` repository.

The repository contains two Python scripts:

* `code_combiner.py` (embedded below in namespace `V1`): parses `.gitignore`
  into a set of rules, renders a tree via `pathlib.iterdir`, and concatenates
  allowlisted source files via `os.walk`.
* `code_combiner_02.py` (embedded below in namespace `V2`): parses `.gitignore`
  into a list of rules, walks the tree with `os.walk` pruning hidden/ignored
  directories, renders a sorted connector tree, and concatenates every
  collected file.

The embedding is shallow: the file system is modelled as a finite forest of
named entries (the listing order of a directory is the order of the model
list, matching the unspecified order of `os.listdir`/`os.scandir`), file
reading is modelled as an oracle `String → Except String String` (`.error e`
models an `open` that raises an exception with message `e`), and Python
library routines used by the scripts (`fnmatch.fnmatch`, `str.strip`,
`str.rstrip`, `str.split`, `os.path.basename`, `os.path.join`, `sorted`,
`pathlib.PurePath.match`, `pathlib.PurePath.suffix`) are re-implemented
faithfully for the POSIX (case-sensitive, `/`-separated) configuration the
scripts run under.
-/

/-! ## Shell-style glob matching (model of CPython `fnmatch.fnmatch` on POSIX)

CPython translates the pattern once and then matches the whole name against
it.  We mirror this with a tokenizer followed by a token matcher.  `*`
matches any (possibly empty) sequence of characters, `?` any single
character, and `[...]` a character class with optional leading `!` negation,
`a-b` ranges, a literal `]` when it is the first class member, and a literal
`[` when the class is never closed — exactly the `fnmatch.translate` rules.
`fnmatch` does not treat `/` specially. -/

inductive Tok where
  | lit (c : Char)
  | anyOne
  | star
  | cls (neg : Bool) (body : List Char)
  deriving DecidableEq

/-- Scan a class body up to the closing `]`; `none` when the class is never
closed. Returns the body and the remaining pattern. -/
def scanClose : List Char → Option (List Char × List Char)
  | [] => none
  | ']' :: rest => some ([], rest)
  | c :: rest =>
      match scanClose rest with
      | none => none
      | some (b, r) => some (c :: b, r)

/-- Parse the inside of a `[...]` class (the part after `[`): optional `!`
negation, then a body in which a leading `]` is literal, up to the closing
`]`.  Returns `(negated, body, rest of pattern)`. -/
def classBody (ps : List Char) : Option (Bool × List Char × List Char) :=
  match ps with
  | '!' :: t =>
      (match t with
       | ']' :: t₂ => (scanClose t₂).map (fun br => (true, ']' :: br.1, br.2))
       | _ => (scanClose t).map (fun br => (true, br.1, br.2)))
  | ']' :: t => (scanClose t).map (fun br => (false, ']' :: br.1, br.2))
  | _ => (scanClose ps).map (fun br => (false, br.1, br.2))

/-- Tokenize a glob pattern.  The fuel argument (initialised with the length
of the pattern) only serves to make the recursion structural: every step
consumes at least one pattern character, so the fuel never runs out. -/
def tokAux : Nat → List Char → List Tok
  | 0, _ => []
  | _ + 1, [] => []
  | n + 1, '*' :: ps => Tok.star :: tokAux n ps
  | n + 1, '?' :: ps => Tok.anyOne :: tokAux n ps
  | n + 1, '[' :: ps =>
      (match classBody ps with
       | some (neg, body, rest) => Tok.cls neg body :: tokAux n rest
       | none => Tok.lit '[' :: tokAux n ps)
  | n + 1, c :: ps => Tok.lit c :: tokAux n ps

def tokenize (p : List Char) : List Tok := tokAux p.length p

/-- Membership of a character in a class body: `a-b` denotes a range, any
other character is literal (a trailing or leading `-` is literal). -/
def memClass : Char → List Char → Bool
  | _, [] => false
  | c, a :: '-' :: b :: rest => (a ≤ c && c ≤ b) || memClass c rest
  | c, a :: rest => (c == a) || memClass c rest

/-- Match a token list against a name.  `star` matches an arbitrary suffix
split, expressed through `List.tails`. -/
def matchToks : List Tok → List Char → Bool
  | [], s => s.isEmpty
  | Tok.star :: ts, s => (s.tails).any (fun t => matchToks ts t)
  | Tok.anyOne :: ts, s =>
      match s with
      | [] => false
      | _ :: t => matchToks ts t
  | Tok.cls neg body :: ts, s =>
      match s with
      | [] => false
      | c :: t => (memClass c body != neg) && matchToks ts t
  | Tok.lit a :: ts, s =>
      match s with
      | [] => false
      | c :: t => (a == c) && matchToks ts t

/-- `fnmatch.fnmatch(nm, pat)` (on POSIX `os.path.normcase` is the
identity, so `fnmatch` and `fnmatchcase` agree). -/
def fnmatchB (nm pat : String) : Bool := matchToks (tokenize pat.data) nm.data

/-! ## Small string helpers modelling Python primitives -/

/-- Python `s.startswith(p)`. -/
def pyStartsWith (s p : String) : Bool := p.data.isPrefixOf s.data

/-- Python `s.endswith(p)`. -/
def pyEndsWith (s p : String) : Bool := p.data.isSuffixOf s.data

/-- Accumulator-passing worker for `pySplitSlash`. -/
def splitSlashAux : List Char → List Char → List String
  | acc, [] => [⟨acc.reverse⟩]
  | acc, '/' :: rest => (⟨acc.reverse⟩ : String) :: splitSlashAux [] rest
  | acc, c :: rest => splitSlashAux (c :: acc) rest

/-- Python `path.split("/")` (with `os.sep = "/"`). -/
def pySplitSlash (s : String) : List String := splitSlashAux [] s.data

/-- The ASCII whitespace characters stripped by Python `str.strip()`. -/
def isPySpace (c : Char) : Bool :=
  c == ' ' || c == '\t' || c == '\n' || c == '\r' || c == '\x0b' || c == '\x0c'

/-- Python `line.strip()`. -/
def pyStrip (s : String) : String :=
  ⟨((s.data.dropWhile isPySpace).reverse.dropWhile isPySpace).reverse⟩

/-- Python `pattern.rstrip("/")`: drop every trailing slash. -/
def pyRstripSlash (s : String) : String :=
  ⟨(s.data.reverse.dropWhile (fun c => c == '/')).reverse⟩

/-- `os.path.basename(path)` on POSIX: everything after the last `/`. -/
def basename (p : String) : String :=
  ⟨(p.data.reverse.takeWhile (fun c => c ≠ '/')).reverse⟩

/-- Render a relative path given as a segment list with the POSIX separator,
as produced by the scripts' iterated `os.path.join(rel_dir, name)` starting
from the empty relative directory. -/
def renderPath : List String → String
  | [] => ""
  | [s] => s
  | s :: t :: rest => s ++ "/" ++ renderPath (t :: rest)

/-- Executable lexicographic comparison of character lists (code-point
order), the order Python uses to compare `str` values. -/
def lexLe : List Char → List Char → Bool
  | [], _ => true
  | _ :: _, [] => false
  | a :: as, b :: bs => if a = b then lexLe as bs else decide (a < b)

/-- Python `str` comparison `a <= b`. -/
def pyStrLe (a b : String) : Bool := lexLe a.data b.data

@[reducible] def pyLeR : String → String → Prop := fun a b => pyStrLe a b = true

instance pyLeR.decRel : DecidableRel pyLeR := fun _ _ => instDecidableEqBool _ _

/-- Python `sorted` on a list of strings. -/
def pySorted (l : List String) : List String := List.insertionSort pyLeR l

namespace V2

/-! ## `code_combiner_02.py`: `load_gitignore` and `is_ignored` -/

/-- Python truthiness test of `load_gitignore`'s loop body:
`if line and not line.startswith("#")`. -/
def keepLine (l : String) : Bool := !(l == "") && !(pyStartsWith l "#")

/-- `load_gitignore(gitignore_path)`.  The rules source is modelled as
`none` when `os.path.exists` is false and `some lines` (the file's lines,
trailing newlines included in each line as Python's file iteration yields
them) otherwise.  The loop strips each line and appends it to `patterns`
when it is non-blank and not a comment. -/
def load_gitignore (contents : Option (List String)) : List String :=
  match contents with
  | none => []
  | some lines =>
      lines.foldl
        (fun patterns line =>
          let line := pyStrip line
          if keepLine line then patterns ++ [line] else patterns)
        []

/-- One iteration of `is_ignored`'s `for pattern in patterns` loop.  Note
that when the pattern ends with `/` and the stripped pattern is not a
segment of the path, control falls through to the `fnmatch` test with the
stripped pattern (the Python code rebinds `pattern` before that test). -/
def matchesPattern (path pattern : String) : Bool :=
  if pyEndsWith pattern "/" then
    let p := pyRstripSlash pattern
    (pySplitSlash path).contains p || fnmatchB path p || fnmatchB (basename path) p
  else
    fnmatchB path pattern || fnmatchB (basename path) pattern

/-- `is_ignored(path, patterns)`: the loop returns `True` as soon as some
pattern matches. -/
def is_ignored (path : String) (patterns : List String) : Bool :=
  patterns.any (fun pattern => matchesPattern path pattern)

end V2

/-! ## The file-system model -/

/-- A directory entry: a file with its text content, or a directory with
its listed children.  The order of a `children` list is the order in which
`os.listdir`/`os.scandir` yields the names; the scripts never rely on it
except by explicitly sorting. -/
inductive Entry where
  | file (name : String) (content : String)
  | dir (name : String) (children : List Entry)

def Entry.name : Entry → String
  | .file n _ => n
  | .dir n _ => n

def Entry.isDir : Entry → Bool
  | .file _ _ => false
  | .dir _ _ => true

def Entry.children : Entry → List Entry
  | .file _ _ => []
  | .dir _ c => c

mutual

/-- Size measure on entries used for termination of the tree walkers. -/
def Entry.esize : Entry → Nat
  | .file _ _ => 1
  | .dir _ c => 1 + forestSize c

/-- Size measure on forests. -/
def forestSize : List Entry → Nat
  | [] => 0
  | e :: es => e.esize + forestSize es

end

/-- The file names of a listing, in listing order (`os.walk` separates the
names of a directory into `dirs` and `files`). -/
def filesOf : List Entry → List String
  | [] => []
  | Entry.file n _ :: es => n :: filesOf es
  | Entry.dir _ _ :: es => filesOf es

namespace V2

/-! ## `code_combiner_02.py`: traversal, tree rendering, concatenation -/

/-- The filter both traversal passes apply to an entry name `n` inside the
relative directory `rel`:
`not (n.startswith('.') or is_ignored(os.path.join(rel, n), patterns))`. -/
def keepName (patterns : List String) (rel : List String) (n : String) : Bool :=
  !(pyStartsWith n ".") && !(is_ignored (renderPath (rel ++ [n])) patterns)

/-- The relative paths (as segment lists) of the surviving files of one
directory listing: the `for file in files` loop body of `get_all_files`. -/
def levelFiles (patterns : List String) (rel : List String) (es : List Entry) :
    List (List String) :=
  ((filesOf es).filter (fun f => keepName patterns rel f)).map (fun f => rel ++ [f])

/-- The recursive part of the `os.walk` loop of `get_all_files`: visit each
directory of the listing in order, skipping pruned ones (`dirs[:] = ...`),
and collect the surviving files of every visited directory. -/
def walkDirs (patterns : List String) : List String → List Entry → List (List String)
  | _, [] => []
  | rel, Entry.file _ _ :: es => walkDirs patterns rel es
  | rel, Entry.dir n c :: es =>
      (if keepName patterns rel n then
        levelFiles patterns (rel ++ [n]) c ++ walkDirs patterns (rel ++ [n]) c
      else [])
      ++ walkDirs patterns rel es

/-- `get_all_files(root, ignore_patterns)`: the files of the root listing
first (the first `os.walk` tuple), then the files found under each
non-pruned subdirectory, depth first.  Paths are returned relative to the
root as segment lists; the script stores `os.path.join(current_dir, file)`
and recovers exactly these relative paths with `os.path.relpath(·, root)`. -/
def get_all_files (patterns : List String) (rel : List String) (es : List Entry) :
    List (List String) :=
  levelFiles patterns rel es ++ walkDirs patterns rel es

/-- The header-plus-content block `combine_files` appends for one file.
Reading is the `readF` oracle: `.ok` is the decoded text (the script opens
with `errors = "ignore"`, so decoding never raises), `.error e` models an
`open` failure caught by the `except` arm. -/
def fileBlock (readF : String → Except String String) (relPath : String) : String :=
  "\n# File: " ++ relPath ++ "\n" ++
    (match readF relPath with
     | Except.ok content => content ++ "\n"
     | Except.error e => "# [Error reading file: " ++ e ++ "]\n")

/-- Concatenation of the blocks of a file list in the given order. -/
def blocksText (readF : String → Except String String) (l : List String) : String :=
  (l.map (fun p => fileBlock readF p)).foldr (fun a b => a ++ b) ""

/-- `combine_files(file_list)`: `for file_path in sorted(file_list)`,
appending each block to the accumulated text. -/
def combine_files (readF : String → Except String String) (file_list : List String) :
    String :=
  (pySorted file_list).foldl (fun acc p => acc ++ fileBlock readF p) ""

/-- The order in which `sorted(os.listdir(current_dir))` yields a listing:
by name, lexicographically. -/
def nameLe (a b : Entry) : Prop := pyLeR a.name b.name

instance nameLe.decRel : DecidableRel nameLe := fun _ _ => instDecidableEqBool _ _

/-- Sort the current listing by name and keep the non-hidden, non-ignored
entries: `for entry in sorted(os.listdir(current_dir))` plus the `continue`
filter of `generate_tree_lines`. -/
def prepare (patterns : List String) (rel : List String) (es : List Entry) : List Entry :=
  (List.insertionSort nameLe es).filter (fun e => keepName patterns rel e.name)

theorem esize_pos (e : Entry) : 1 ≤ e.esize := by
  cases e <;> simp [Entry.esize]

theorem forestSize_eq_sum (l : List Entry) : forestSize l = (l.map Entry.esize).sum := by
  induction l with
  | nil => rfl
  | cons e es ih => simp [forestSize, ih]

theorem forestSize_filter_le (p : Entry → Bool) (l : List Entry) :
    forestSize (l.filter p) ≤ forestSize l := by
  induction l with
  | nil => simp
  | cons e es ih =>
      by_cases h : p e = true <;> simp [List.filter, h, forestSize] <;> omega

theorem forestSize_perm {l₁ l₂ : List Entry} (h : l₁.Perm l₂) :
    forestSize l₁ = forestSize l₂ := by
  rw [forestSize_eq_sum, forestSize_eq_sum]
  exact List.Perm.sum_eq (h.map Entry.esize)

theorem forestSize_prepare_le (patterns : List String) (rel : List String)
    (es : List Entry) : forestSize (prepare patterns rel es) ≤ forestSize es := by
  calc forestSize (prepare patterns rel es)
      ≤ forestSize (List.insertionSort (fun a b : Entry => pyLeR a.name b.name) es) :=
        forestSize_filter_le _ _
    _ = forestSize es := forestSize_perm (List.perm_insertionSort _ _)

theorem forestSize_children_lt (e : Entry) : forestSize e.children < e.esize := by
  cases e <;> simp [Entry.children, Entry.esize, forestSize]

/-- The `for i, entry in enumerate(entries)` loop of `generate_tree_lines`,
applied to the already sorted-and-filtered surviving entries of one level:
the last entry gets the `└── ` connector and a blank continuation, earlier
entries get `├── ` and a `│   ` continuation, and each directory recurses
into its own sorted-and-filtered listing. -/
def renderLevel (patterns : List String) : List String → String → List Entry → List String
  | _, _, [] => []
  | rel, pre, [e] =>
      (pre ++ "└── " ++ e.name) ::
        (if e.isDir then
          renderLevel patterns (rel ++ [e.name]) (pre ++ "    ")
            (prepare patterns (rel ++ [e.name]) e.children)
        else [])
  | rel, pre, e :: f :: rest =>
      ((pre ++ "├── " ++ e.name) ::
        (if e.isDir then
          renderLevel patterns (rel ++ [e.name]) (pre ++ "│   ")
            (prepare patterns (rel ++ [e.name]) e.children)
        else []))
      ++ renderLevel patterns rel pre (f :: rest)
termination_by _ _ l => forestSize l
decreasing_by
  all_goals simp only [forestSize]
  · exact lt_of_le_of_lt (forestSize_prepare_le _ _ _)
      (by have := forestSize_children_lt e; omega)
  · exact lt_of_le_of_lt (forestSize_prepare_le _ _ _)
      (by have h₁ := forestSize_children_lt e; have h₂ := esize_pos f; omega)
  · have := esize_pos e; omega

/-- `generate_tree_lines(current_dir, rel_path, prefix, ignore_patterns)`. -/
def generate_tree_lines (patterns : List String) (rel : List String) (pre : String)
    (es : List Entry) : List String :=
  renderLevel patterns rel pre (prepare patterns rel es)

/-- The `main()` pattern setup: append the hardcoded output folder name to
the loaded patterns when absent. -/
def output_folder : String := "output_code_combiner"

def effectivePatterns (patterns : List String) : List String :=
  if output_folder ∈ patterns then patterns else patterns ++ [output_folder]

/-- The sorted file list `main()` renders into the manifest section
(`sorted(os.path.relpath(path, root) for path in file_list)`). -/
def manifestOf (patterns : List String) (es : List Entry) : List String :=
  pySorted ((get_all_files (effectivePatterns patterns) [] es).map renderPath)

/-- The combined-code section `main()` obtains from `combine_files`. -/
def combinedOf (readF : String → Except String String) (patterns : List String)
    (es : List Entry) : String :=
  combine_files readF ((get_all_files (effectivePatterns patterns) [] es).map renderPath)

end V2

/-- Whether an entry is a file (`pathlib.Path.is_file()`). -/
def Entry.isFile (e : Entry) : Bool := !e.isDir

namespace V1

/-! ## `code_combiner.py`

This script works on `pathlib` paths; a relative path is modelled as its
`parts` tuple, a list of segments. -/

/-- `pathlib.PurePath.match(pattern)` for a relative, non-empty pattern:
split the pattern on `/` (empty segments collapse, as `PurePath`
normalises them away), and glob-match the pattern segments against the
final segments of the path, one segment at a time. -/
def pathMatch (parts : List String) (pattern : String) : Bool :=
  let pparts := (pySplitSlash pattern).filter (fun s => !(s == ""))
  !pparts.isEmpty && decide (pparts.length ≤ parts.length) &&
    (List.zipWith (fun pp sp => fnmatchB sp pp) pparts
      (parts.drop (parts.length - pparts.length))).all (fun b => b)

/-- `is_ignored(path, ignored_paths)` of `code_combiner.py`: some rule
matches the path (`path.match`) or equals one of its segments, or some
segment is hidden.  `ignored_paths` is a Python `set`; its iteration order
does not matter for the disjunction, so it is modelled as a list. -/
def is_ignored (parts : List String) (ignored : List String) : Bool :=
  ignored.any (fun ig => pathMatch parts ig || parts.contains ig)
    || parts.any (fun part => pyStartsWith part ".")

/-- The fixed extension allowlist of `concatenate_code_files`. -/
def allowlist : List String := [".py", ".js", ".java", ".html", ".css"]

/-- `pathlib.PurePath.suffix` of a file name: the part of the name from its
last dot on, provided that dot is neither the first nor the last
character; otherwise the empty string. -/
def pathSuffix (name : String) : String :=
  let cs := name.data
  let after := cs.reverse.takeWhile (fun c => c ≠ '.')
  if after.length + 2 ≤ cs.length ∧ 1 ≤ after.length then ⟨'.' :: after.reverse⟩ else ""

/-- The `for file in filenames` loop body of `concatenate_code_files`: keep
a file when its relative path is not ignored and its suffix is in the
allowlist. -/
def keepFile (ignored : List String) (rel : List String) (f : String) : Bool :=
  !is_ignored (rel ++ [f]) ignored && allowlist.contains (pathSuffix f)

/-- The included files of one `os.walk` listing, as relative segment
lists, in listing order. -/
def levelIncluded (ignored : List String) (rel : List String) (es : List Entry) :
    List (List String) :=
  ((filesOf es).filter (fun f => keepFile ignored rel f)).map (fun f => rel ++ [f])

/-- The recursive part of the `os.walk` loop of `concatenate_code_files`.
Note the quirk of the script: the pruning test passes `Path(dirpath) / d`,
an *absolute* path (so the parts of the root itself take part in the
match), while the file test passes the path relative to the root.
`rootParts` are the parts of the absolute root directory. -/
def v1WalkDirs (ignored : List String) (rootParts : List String) :
    List String → List Entry → List (List String)
  | _, [] => []
  | rel, Entry.file _ _ :: es => v1WalkDirs ignored rootParts rel es
  | rel, Entry.dir n c :: es =>
      (if !is_ignored (rootParts ++ rel ++ [n]) ignored then
        levelIncluded ignored (rel ++ [n]) c ++ v1WalkDirs ignored rootParts (rel ++ [n]) c
      else [])
      ++ v1WalkDirs ignored rootParts rel es

/-- `included_files` as accumulated by `concatenate_code_files` (also the
order in which the content blocks are emitted: both lists are appended to
in lockstep inside the same loop iteration). -/
def included_files (ignored : List String) (rootParts : List String) (es : List Entry) :
    List (List String) :=
  levelIncluded ignored [] es ++ v1WalkDirs ignored rootParts [] es

/-- The sort key order of `generate_folder_map`:
`key = lambda e: (e.is_file(), e.name)`, i.e. directories before files
(`False < True`), then names lexicographically. -/
def sortKeyLe (a b : Entry) : Bool :=
  (!a.isFile && b.isFile) || (a.isFile == b.isFile && pyStrLe a.name b.name)

def sortKeyR (a b : Entry) : Prop := sortKeyLe a b = true

instance sortKeyR.decRel : DecidableRel sortKeyR := fun _ _ => instDecidableEqBool _ _

/-- One level of `generate_folder_map`'s `tree`: filter the listing by
`is_ignored` of the path relative to the root, then sort by
`(is_file, name)`. -/
def levelEntries (ignored : List String) (rel : List String) (es : List Entry) :
    List Entry :=
  List.insertionSort sortKeyR (es.filter (fun e => !is_ignored (rel ++ [e.name]) ignored))

theorem forestSize_levelEntries_le (ignored : List String) (rel : List String)
    (es : List Entry) : forestSize (levelEntries ignored rel es) ≤ forestSize es := by
  calc forestSize (levelEntries ignored rel es)
      = forestSize (es.filter (fun e => !is_ignored (rel ++ [e.name]) ignored)) :=
        V2.forestSize_perm (List.perm_insertionSort _ _)
    _ ≤ forestSize es := V2.forestSize_filter_le _ _

/-- The rendering loop of `generate_folder_map`'s `tree`, applied to the
filtered-and-sorted entries of one level; connectors and continuation
prefixes are the same as in `code_combiner_02.py`. -/
def tree (ignored : List String) : List String → String → List Entry → List String
  | _, _, [] => []
  | rel, pre, [e] =>
      (pre ++ "└── " ++ e.name) ::
        (if e.isDir then
          tree ignored (rel ++ [e.name]) (pre ++ "    ")
            (levelEntries ignored (rel ++ [e.name]) e.children)
        else [])
  | rel, pre, e :: f :: rest =>
      ((pre ++ "├── " ++ e.name) ::
        (if e.isDir then
          tree ignored (rel ++ [e.name]) (pre ++ "│   ")
            (levelEntries ignored (rel ++ [e.name]) e.children)
        else []))
      ++ tree ignored rel pre (f :: rest)
termination_by _ _ l => forestSize l
decreasing_by
  all_goals simp only [forestSize]
  · exact lt_of_le_of_lt (forestSize_levelEntries_le _ _ _)
      (by have := V2.forestSize_children_lt e; omega)
  · exact lt_of_le_of_lt (forestSize_levelEntries_le _ _ _)
      (by have h₁ := V2.forestSize_children_lt e; have h₂ := V2.esize_pos f; omega)
  · have := V2.esize_pos e; omega

/-- `generate_folder_map(root, ignored_paths)`, as its list of lines. -/
def generate_folder_map (ignored : List String) (es : List Entry) : List String :=
  tree ignored [] "" (levelEntries ignored [] es)

end V1

/-! ## Order facts about the comparators -/

theorem lexLe_total : ∀ (a b : List Char), lexLe a b = true ∨ lexLe b a = true
  | [], _ => Or.inl rfl
  | _ :: _, [] => Or.inr rfl
  | a :: as, b :: bs => by
      by_cases h : a = b
      · subst h
        simpa [lexLe] using lexLe_total as bs
      · rcases lt_or_gt_of_ne h with hlt | hgt
        · exact Or.inl (by simp [lexLe, h, hlt])
        · exact Or.inr (by simp [lexLe, Ne.symm h, hgt])

theorem lexLe_trans :
    ∀ (a b c : List Char), lexLe a b = true → lexLe b c = true → lexLe a c = true
  | [], _, _, _, _ => rfl
  | _ :: _, [], _, h, _ => by simp [lexLe] at h
  | _ :: _, _ :: _, [], _, h₂ => by simp [lexLe] at h₂
  | a :: as, b :: bs, c :: cs, h₁, h₂ => by
      by_cases hab : a = b <;> by_cases hbc : b = c
      · subst hab; subst hbc
        simp only [lexLe, if_pos rfl] at h₁ h₂ ⊢
        exact lexLe_trans as bs cs h₁ h₂
      · subst hab
        simp only [lexLe, if_neg hbc] at h₂
        simp only [lexLe, if_neg hbc, h₂]
      · subst hbc
        simp only [lexLe, if_neg hab] at h₁
        simp only [lexLe, if_neg hab, h₁]
      · simp only [lexLe, if_neg hab] at h₁
        simp only [lexLe, if_neg hbc] at h₂
        have hac : a < c := lt_trans (of_decide_eq_true h₁) (of_decide_eq_true h₂)
        simp only [lexLe, if_neg (ne_of_lt hac), decide_eq_true_eq]
        exact hac

instance pyLeR.total : IsTotal String pyLeR :=
  ⟨fun a b => lexLe_total a.data b.data⟩

instance pyLeR.trans : IsTrans String pyLeR :=
  ⟨fun a b c => lexLe_trans a.data b.data c.data⟩

instance V2.nameLe.total : IsTotal Entry V2.nameLe :=
  ⟨fun a b => lexLe_total a.name.data b.name.data⟩

instance V2.nameLe.trans : IsTrans Entry V2.nameLe :=
  ⟨fun a b c => lexLe_trans a.name.data b.name.data c.name.data⟩

theorem V1.sortKeyLe_file_left {a b : Entry} (ha : a.isFile = true)
    (h : V1.sortKeyLe a b = true) : b.isFile = true ∧ pyStrLe a.name b.name = true := by
  cases hb : b.isFile <;> simp [V1.sortKeyLe, ha, hb] at h ⊢ <;> exact h

instance V1.sortKeyR.total : IsTotal Entry V1.sortKeyR := by
  constructor
  intro a b
  cases ha : a.isFile <;> cases hb : b.isFile <;>
    simp [V1.sortKeyR, V1.sortKeyLe, ha, hb]
  · exact lexLe_total a.name.data b.name.data
  · exact lexLe_total a.name.data b.name.data

instance V1.sortKeyR.trans : IsTrans Entry V1.sortKeyR := by
  constructor
  intro a b c h₁ h₂
  simp only [V1.sortKeyR] at h₁ h₂ ⊢
  cases ha : a.isFile <;> cases hb : b.isFile <;> cases hc : c.isFile <;>
    simp_all [V1.sortKeyLe]
  · exact lexLe_trans _ _ _ h₁ h₂
  · exact lexLe_trans _ _ _ h₁ h₂

namespace V2

/-! ## Pruning: outputs do not depend on the contents of excluded directories

`SimilarForest patterns rel l l'` relates two listings that agree
everywhere except possibly beneath directories that the traversal prunes
(hidden name or `is_ignored` relative path): such directories may have
arbitrary, unrelated contents on the two sides. -/

mutual

inductive SimilarEntry (patterns : List String) : List String → Entry → Entry → Prop where
  | file (rel : List String) (n c : String) :
      SimilarEntry patterns rel (Entry.file n c) (Entry.file n c)
  | dirKept (rel : List String) (n : String) (c c' : List Entry) :
      keepName patterns rel n = true → SimilarForest patterns (rel ++ [n]) c c' →
      SimilarEntry patterns rel (Entry.dir n c) (Entry.dir n c')
  | dirPruned (rel : List String) (n : String) (c c' : List Entry) :
      keepName patterns rel n = false →
      SimilarEntry patterns rel (Entry.dir n c) (Entry.dir n c')

inductive SimilarForest (patterns : List String) : List String → List Entry → List Entry → Prop where
  | nil (rel : List String) : SimilarForest patterns rel [] []
  | cons {rel : List String} {e e' : Entry} {es es' : List Entry} :
      SimilarEntry patterns rel e e' → SimilarForest patterns rel es es' →
      SimilarForest patterns rel (e :: es) (e' :: es')

end

theorem SimilarEntry.name_eq {patterns : List String} {rel : List String} {e e' : Entry}
    (h : SimilarEntry patterns rel e e') : e.name = e'.name := by
  cases h <;> rfl

theorem SimilarEntry.isDir_eq {patterns : List String} {rel : List String} {e e' : Entry}
    (h : SimilarEntry patterns rel e e') : e.isDir = e'.isDir := by
  cases h <;> rfl

theorem similarForest_orderedInsert {patterns : List String} {rel : List String} :
    ∀ {l l' : List Entry}, SimilarForest patterns rel l l' →
    ∀ {a a' : Entry}, SimilarEntry patterns rel a a' →
    SimilarForest patterns rel (List.orderedInsert nameLe a l)
      (List.orderedInsert nameLe a' l') := by
  intro l
  induction l with
  | nil =>
      intro l' h a a' ha
      cases h
      exact .cons ha (.nil _)
  | cons e es ih =>
      intro l' h a a' ha
      cases h with
      | @cons _ _ e' _ es' hb hrest =>
          by_cases hle : nameLe a e
          · have hle' : nameLe a' e' := by
              unfold nameLe at hle ⊢
              rw [← ha.name_eq, ← hb.name_eq]
              exact hle
            rw [List.orderedInsert, if_pos hle, List.orderedInsert, if_pos hle']
            exact .cons ha (.cons hb hrest)
          · have hle' : ¬ nameLe a' e' := by
              unfold nameLe at hle ⊢
              rw [← ha.name_eq, ← hb.name_eq]
              exact hle
            rw [List.orderedInsert, if_neg hle, List.orderedInsert, if_neg hle']
            exact .cons hb (ih hrest ha)

theorem similarForest_insertionSort {patterns : List String} {rel : List String} :
    ∀ {l l' : List Entry}, SimilarForest patterns rel l l' →
    SimilarForest patterns rel (List.insertionSort nameLe l)
      (List.insertionSort nameLe l') := by
  intro l
  induction l with
  | nil =>
      intro l' h
      cases h
      exact .nil _
  | cons e es ih =>
      intro l' h
      cases h with
      | cons hb hrest =>
          rw [List.insertionSort, List.insertionSort]
          exact similarForest_orderedInsert (ih hrest) hb

theorem similarForest_filter {patterns : List String} {rel : List String} :
    ∀ {l l' : List Entry}, SimilarForest patterns rel l l' →
    SimilarForest patterns rel (l.filter (fun e => keepName patterns rel e.name))
      (l'.filter (fun e => keepName patterns rel e.name)) := by
  intro l
  induction l with
  | nil =>
      intro l' h
      cases h
      exact .nil _
  | cons e es ih =>
      intro l' h
      cases h with
      | @cons _ _ e' _ es' hb hrest =>
          by_cases hk : keepName patterns rel e.name = true
          · have hk' : keepName patterns rel e'.name = true := hb.name_eq ▸ hk
            rw [List.filter_cons, if_pos (by simpa using hk), List.filter_cons,
              if_pos (by simpa using hk')]
            exact .cons hb (ih hrest)
          · have hk' : ¬ keepName patterns rel e'.name = true := hb.name_eq ▸ hk
            rw [List.filter_cons, if_neg (by simpa using hk), List.filter_cons,
              if_neg (by simpa using hk')]
            exact ih hrest

theorem similarForest_prepare {patterns : List String} {rel : List String}
    {l l' : List Entry} (h : SimilarForest patterns rel l l') :
    SimilarForest patterns rel (prepare patterns rel l) (prepare patterns rel l') :=
  similarForest_filter (similarForest_insertionSort h)

theorem prepare_keep {patterns : List String} {rel : List String} {es : List Entry} :
    ∀ e ∈ prepare patterns rel es, keepName patterns rel e.name = true := by
  intro e he
  unfold prepare at he
  simpa using (List.mem_filter.mp he).2

theorem similarForest_filesOf {patterns : List String} {rel : List String} :
    ∀ {l l' : List Entry}, SimilarForest patterns rel l l' → filesOf l = filesOf l' := by
  intro l
  induction l with
  | nil =>
      intro l' h
      cases h
      rfl
  | cons e es ih =>
      intro l' h
      cases h with
      | cons hb hrest => cases hb <;> simp [filesOf, ih hrest]

theorem levelFiles_congr {patterns : List String} {rel : List String} {c c' : List Entry}
    (h : filesOf c = filesOf c') : levelFiles patterns rel c = levelFiles patterns rel c' := by
  simp [levelFiles, h]

theorem walkDirs_similar {patterns : List String} (fuel : Nat) :
    ∀ {rel : List String} {l l' : List Entry}, forestSize l ≤ fuel →
    SimilarForest patterns rel l l' → walkDirs patterns rel l = walkDirs patterns rel l' := by
  induction fuel with
  | zero =>
      intro rel l l' hsize h
      cases h with
      | nil => rfl
      | @cons rel e e' es es' hb hrest =>
          exfalso
          have := esize_pos e
          simp [forestSize] at hsize
          omega
  | succ n ih =>
      intro rel l l' hsize h
      cases h with
      | nil => rfl
      | @cons rel e e' es es' hb hrest =>
          have hes : forestSize es ≤ n := by
            have := esize_pos e
            simp [forestSize] at hsize
            omega
          cases hb with
          | file rel nm cnt =>
              simp only [walkDirs]
              exact ih hes hrest
          | dirKept rel nm c c' hk hc =>
              have hcsize : forestSize c ≤ n := by
                simp [forestSize, Entry.esize] at hsize
                omega
              simp only [walkDirs]
              rw [if_pos hk, if_pos hk, levelFiles_congr (similarForest_filesOf hc),
                ih hcsize hc, ih hes hrest]
          | dirPruned rel nm c c' hk =>
              simp only [walkDirs]
              rw [if_neg (by simp [hk]), if_neg (by simp [hk]), ih hes hrest]

theorem get_all_files_similar {patterns : List String} {rel : List String}
    {l l' : List Entry} (h : SimilarForest patterns rel l l') :
    get_all_files patterns rel l = get_all_files patterns rel l' := by
  rw [get_all_files, get_all_files, levelFiles_congr (similarForest_filesOf h),
    walkDirs_similar (forestSize l) le_rfl h]

theorem renderLevel_similar {patterns : List String} (fuel : Nat) :
    ∀ {rel : List String} {l l' : List Entry} {pre : String}, forestSize l ≤ fuel →
    SimilarForest patterns rel l l' → (∀ e ∈ l, keepName patterns rel e.name = true) →
    renderLevel patterns rel pre l = renderLevel patterns rel pre l' := by
  induction fuel with
  | zero =>
      intro rel l l' pre hsize h _
      cases h with
      | nil => rfl
      | @cons rel e e' es es' hb hrest =>
          exfalso
          have := esize_pos e
          simp [forestSize] at hsize
          omega
  | succ n ih =>
      intro rel l l' pre hsize h hkeep
      cases h with
      | nil => rfl
      | @cons rel e e' es es' hb hrest =>
          have hes : forestSize es ≤ n := by
            have := esize_pos e
            simp [forestSize] at hsize
            omega
          cases hrest with
          | nil =>
              cases hb with
              | file rel nm cnt => rfl
              | @dirKept rel nm c c' hk hc =>
                  have hcsize : forestSize (prepare patterns (rel ++ [nm]) c) ≤ n := by
                    have h₁ := forestSize_prepare_le patterns (rel ++ [nm]) c
                    simp [forestSize, Entry.esize] at hsize
                    omega
                  simp only [renderLevel, Entry.name, Entry.isDir, Entry.children, if_true]
                  rw [ih hcsize (similarForest_prepare hc) prepare_keep]
              | @dirPruned rel nm c c' hk =>
                  exfalso
                  have := hkeep (Entry.dir nm c) (by simp)
                  simp [Entry.name] at this
                  rw [this] at hk
                  cases hk
          | @cons rel f f' fs fs' hb₂ hrest₂ =>
              have htail : renderLevel patterns rel pre (f :: fs)
                  = renderLevel patterns rel pre (f' :: fs') := by
                refine ih ?_ (.cons hb₂ hrest₂) ?_
                · have := esize_pos e
                  simp [forestSize] at hsize ⊢
                  omega
                · intro x hx
                  exact hkeep x (List.mem_cons_of_mem e hx)
              cases hb with
              | file rel nm cnt =>
                  simp only [renderLevel]
                  rw [htail]
              | @dirKept rel nm c c' hk hc =>
                  have hcsize : forestSize (prepare patterns (rel ++ [nm]) c) ≤ n := by
                    have h₁ := forestSize_prepare_le patterns (rel ++ [nm]) c
                    simp [forestSize, Entry.esize] at hsize
                    omega
                  simp only [renderLevel, Entry.name, Entry.isDir, Entry.children, if_true]
                  rw [ih hcsize (similarForest_prepare hc) prepare_keep, htail]
              | @dirPruned rel nm c c' hk =>
                  exfalso
                  have := hkeep (Entry.dir nm c) (by simp)
                  simp [Entry.name] at this
                  rw [this] at hk
                  cases hk

theorem generate_tree_lines_similar {patterns : List String} {rel : List String}
    {es es' : List Entry} (h : SimilarForest patterns rel es es') (pre : String) :
    generate_tree_lines patterns rel pre es = generate_tree_lines patterns rel pre es' := by
  rw [generate_tree_lines, generate_tree_lines]
  exact renderLevel_similar (forestSize (prepare patterns rel es)) le_rfl
    (similarForest_prepare h) prepare_keep

end V2

namespace V2

/-! ## Every collected path consists of surviving segments only -/

/-- Every (proper or full) non-empty leading portion of the suffix `s`
below `rel` ends in a segment that passes the traversal filter at its own
level. -/
def pathOk (patterns : List String) (rel : List String) (s : List String) : Prop :=
  ∀ (k : Nat) (hk : k < s.length),
    keepName patterns (rel ++ s.take k) (s.get ⟨k, hk⟩) = true

theorem levelFiles_mem {patterns : List String} {rel : List String} {es : List Entry}
    {p : List String} (h : p ∈ levelFiles patterns rel es) :
    ∃ f, f ∈ filesOf es ∧ keepName patterns rel f = true ∧ p = rel ++ [f] := by
  simp only [levelFiles, List.mem_map, List.mem_filter] at h
  obtain ⟨f, ⟨hmem, hkeep⟩, rfl⟩ := h
  exact ⟨f, hmem, hkeep, rfl⟩

theorem walkDirs_mem {patterns : List String} (fuel : Nat) :
    ∀ {rel : List String} {es : List Entry} {p : List String}, forestSize es ≤ fuel →
    p ∈ walkDirs patterns rel es → ∃ s, s ≠ [] ∧ p = rel ++ s ∧ pathOk patterns rel s := by
  induction fuel with
  | zero =>
      intro rel es p hsize hmem
      cases es with
      | nil => simp [walkDirs] at hmem
      | cons e es =>
          exfalso
          have := esize_pos e
          simp [forestSize] at hsize
          omega
  | succ n ih =>
      intro rel es p hsize hmem
      cases es with
      | nil => simp [walkDirs] at hmem
      | cons e es =>
          have hes : forestSize es ≤ n := by
            have := esize_pos e
            simp [forestSize] at hsize
            omega
          cases e with
          | file nm cnt =>
              simp only [walkDirs] at hmem
              exact ih hes hmem
          | dir nm c =>
              have hcs : forestSize c ≤ n := by
                simp [forestSize, Entry.esize] at hsize
                omega
              simp only [walkDirs, List.mem_append] at hmem
              rcases hmem with h1 | h2
              · by_cases hk : keepName patterns rel nm = true
                · rw [if_pos hk, List.mem_append] at h1
                  rcases h1 with hf | hw
                  · obtain ⟨f, _, hkeepf, rfl⟩ := levelFiles_mem hf
                    refine ⟨[nm, f], by simp, by simp, ?_⟩
                    intro k hk2
                    match k with
                    | 0 => simpa using hk
                    | 1 => simpa using hkeepf
                  · obtain ⟨s', hne, rfl, hok⟩ := ih hcs hw
                    refine ⟨nm :: s', by simp, by simp, ?_⟩
                    intro k hk2
                    match k with
                    | 0 => simpa using hk
                    | j + 1 =>
                        have hj := hok j (by simpa using hk2)
                        simpa [List.take_succ_cons, List.append_assoc] using hj
                · rw [if_neg hk] at h1
                  simp at h1
              · exact ih hes h2

theorem get_all_files_mem {patterns : List String} {rel : List String} {es : List Entry}
    {p : List String} (h : p ∈ get_all_files patterns rel es) :
    ∃ s, s ≠ [] ∧ p = rel ++ s ∧ pathOk patterns rel s := by
  rw [get_all_files, List.mem_append] at h
  rcases h with hf | hw
  · obtain ⟨f, _, hkeep, rfl⟩ := levelFiles_mem hf
    refine ⟨[f], by simp, rfl, ?_⟩
    intro k hk2
    match k with
    | 0 => simpa using hkeep
  · exact walkDirs_mem (forestSize es) le_rfl hw

/-- A collected relative path never contains a hidden segment. -/
theorem get_all_files_no_hidden {patterns : List String} {es : List Entry}
    {p : List String} (h : p ∈ get_all_files patterns [] es) :
    ∀ seg ∈ p, pyStartsWith seg "." = false := by
  obtain ⟨s, _, hp, hok⟩ := get_all_files_mem h
  simp only [List.nil_append] at hp
  subst hp
  intro seg hseg
  obtain ⟨⟨k, hk⟩, rfl⟩ := List.mem_iff_get.mp hseg
  have hkeep := hok k hk
  simp only [keepName, Bool.and_eq_true, Bool.not_eq_true'] at hkeep
  exact hkeep.1

/-- Conversely, every surviving file of a listing is collected (there is no
further filtering, in particular none by extension). -/
theorem get_all_files_top_mem {patterns : List String} {rel : List String}
    {es : List Entry} {f : String} (hf : f ∈ filesOf es)
    (hk : keepName patterns rel f = true) :
    (rel ++ [f]) ∈ get_all_files patterns rel es := by
  rw [get_all_files, List.mem_append]
  left
  simp only [levelFiles, List.mem_map, List.mem_filter]
  exact ⟨f, ⟨hf, hk⟩, rfl⟩

end V2

namespace V2

/-! ## Reflexivity and append for the pruning relation -/

mutual

theorem similarEntry_refl (patterns : List String) : ∀ (rel : List String) (e : Entry),
    SimilarEntry patterns rel e e
  | rel, Entry.file n c => SimilarEntry.file rel n c
  | rel, Entry.dir n c =>
      if h : keepName patterns rel n = true then
        SimilarEntry.dirKept rel n c c h (similarForest_refl patterns (rel ++ [n]) c)
      else
        SimilarEntry.dirPruned rel n c c (by simpa using h)

theorem similarForest_refl (patterns : List String) : ∀ (rel : List String) (l : List Entry),
    SimilarForest patterns rel l l
  | rel, [] => SimilarForest.nil rel
  | rel, e :: es =>
      SimilarForest.cons (similarEntry_refl patterns rel e) (similarForest_refl patterns rel es)

end

theorem similarForest_append {patterns : List String} {rel : List String} :
    ∀ {a a' b b' : List Entry}, SimilarForest patterns rel a a' →
    SimilarForest patterns rel b b' → SimilarForest patterns rel (a ++ b) (a' ++ b') := by
  intro a
  induction a with
  | nil =>
      intro a' b b' ha hb
      cases ha
      exact hb
  | cons e es ih =>
      intro a' b b' ha hb
      cases ha with
      | cons he hrest => exact .cons he (ih hrest hb)

/-! ## The hardcoded output folder is always excluded -/

theorem output_folder_mem_eff (patterns : List String) :
    output_folder ∈ effectivePatterns patterns := by
  unfold effectivePatterns
  by_cases h : output_folder ∈ patterns
  · rw [if_pos h]; exact h
  · rw [if_neg h]; simp

theorem takeWhile_append_not {p : Char → Bool} {a : Char} (ha : p a = false) :
    ∀ (l r : List Char), ((l ++ a :: r).takeWhile p) = l.takeWhile p := by
  intro l r
  induction l with
  | nil => simp [List.takeWhile, ha]
  | cons c l ih =>
      rw [List.cons_append]
      cases hc : p c <;> simp [List.takeWhile, hc, ih]

theorem basename_concat (x z : String) : basename (x ++ "/" ++ z) = basename z := by
  unfold basename
  have hdata : (x ++ "/" ++ z).data = x.data ++ '/' :: z.data := by
    simp
  rw [hdata]
  have hrev : (x.data ++ '/' :: z.data).reverse = z.data.reverse ++ '/' :: x.data.reverse := by
    simp
  rw [hrev, takeWhile_append_not (by decide)]

theorem renderPath_cons (s : String) : ∀ (l : List String), l ≠ [] →
    renderPath (s :: l) = s ++ "/" ++ renderPath l
  | [], h => absurd rfl h
  | _ :: _, _ => rfl

theorem basename_renderPath_out : ∀ (rel : List String),
    basename (renderPath (rel ++ [output_folder])) = output_folder
  | [] => by decide
  | r :: rs => by
      rw [show (r :: rs) ++ [output_folder] = r :: (rs ++ [output_folder]) from rfl,
        renderPath_cons r _ (by simp), basename_concat]
      exact basename_renderPath_out rs

theorem matchesPattern_out {path : String} (h : basename path = output_folder) :
    matchesPattern path output_folder = true := by
  unfold matchesPattern
  rw [if_neg (by decide)]
  have hm : fnmatchB (basename path) output_folder = true := by
    rw [h]; decide
  simp [hm]

theorem is_ignored_out (patterns : List String) (rel : List String) :
    is_ignored (renderPath (rel ++ [output_folder])) (effectivePatterns patterns) = true := by
  unfold is_ignored
  rw [List.any_eq_true]
  exact ⟨output_folder, output_folder_mem_eff patterns,
    matchesPattern_out (basename_renderPath_out rel)⟩

theorem keepName_out (patterns : List String) (rel : List String) :
    keepName (effectivePatterns patterns) rel output_folder = false := by
  unfold keepName
  rw [is_ignored_out]
  simp

theorem filesOf_append : ∀ (l₁ l₂ : List Entry),
    filesOf (l₁ ++ l₂) = filesOf l₁ ++ filesOf l₂ := by
  intro l₁ l₂
  induction l₁ with
  | nil => rfl
  | cons e l ih => cases e <;> simp [filesOf, ih]

theorem levelFiles_drop (patterns : List String) (rel : List String) (n : String)
    (c : List Entry) (l₁ l₂ : List Entry) :
    levelFiles patterns rel (l₁ ++ Entry.dir n c :: l₂) = levelFiles patterns rel (l₁ ++ l₂) := by
  unfold levelFiles
  rw [filesOf_append, filesOf_append]
  rfl

theorem walkDirs_drop {patterns : List String} {n : String} {c : List Entry}
    {rel : List String} (hk : keepName patterns rel n = false) :
    ∀ (l₁ l₂ : List Entry),
    walkDirs patterns rel (l₁ ++ Entry.dir n c :: l₂) = walkDirs patterns rel (l₁ ++ l₂) := by
  intro l₁ l₂
  induction l₁ with
  | nil =>
      rw [List.nil_append, List.nil_append]
      simp only [walkDirs]
      rw [if_neg (by simp [hk])]
      rfl
  | cons e l ih =>
      cases e with
      | file nm cnt =>
          rw [List.cons_append, List.cons_append]
          simp only [walkDirs]
          exact ih
      | dir nm d =>
          rw [List.cons_append, List.cons_append]
          simp only [walkDirs]
          rw [ih]

theorem get_all_files_drop {patterns : List String} {n : String} {c : List Entry}
    {rel : List String} (hk : keepName patterns rel n = false) (l₁ l₂ : List Entry) :
    get_all_files patterns rel (l₁ ++ Entry.dir n c :: l₂)
      = get_all_files patterns rel (l₁ ++ l₂) := by
  rw [get_all_files, get_all_files, levelFiles_drop, walkDirs_drop hk]

/-! ## Concatenation order facts -/

theorem blocksText_cons (readF : String → Except String String) (p : String)
    (l : List String) :
    blocksText readF (p :: l) = fileBlock readF p ++ blocksText readF l := rfl

theorem foldl_append_blocks (readF : String → Except String String) :
    ∀ (l : List String) (acc : String),
    l.foldl (fun a p => a ++ fileBlock readF p) acc = acc ++ blocksText readF l := by
  intro l
  induction l with
  | nil =>
      intro acc
      simp [blocksText]
  | cons p l ih =>
      intro acc
      rw [List.foldl_cons, ih, blocksText_cons, ← String.append_assoc]

theorem combine_files_eq (readF : String → Except String String) (l : List String) :
    combine_files readF l = blocksText readF (pySorted l) := by
  rw [combine_files, foldl_append_blocks]
  simp

theorem blocksText_append (readF : String → Except String String) :
    ∀ (xs ys : List String),
    blocksText readF (xs ++ ys) = blocksText readF xs ++ blocksText readF ys := by
  intro xs ys
  induction xs with
  | nil => simp [blocksText]
  | cons p l ih =>
      rw [List.cons_append, blocksText_cons, blocksText_cons, ih, String.append_assoc]

/-! ## Rule loading -/

theorem load_gitignore_some : ∀ (lines : List String),
    load_gitignore (some lines) = (lines.map pyStrip).filter keepLine := by
  have aux : ∀ (lines : List String) (acc : List String),
      lines.foldl
        (fun patterns line =>
          let line := pyStrip line
          if keepLine line then patterns ++ [line] else patterns)
        acc
      = acc ++ (lines.map pyStrip).filter keepLine := by
    intro lines
    induction lines with
    | nil => intro acc; simp
    | cons l ls ih =>
        intro acc
        rw [List.foldl_cons, List.map_cons, List.filter_cons]
        by_cases h : keepLine (pyStrip l) = true
        · rw [ih, if_pos h]
          simp [h]
        · rw [ih, if_neg (by simpa using h)]
          simp [h]
  intro lines
  rw [load_gitignore, aux, List.nil_append]

end V2

namespace V1

/-! ## The v1 manifest only contains allowlisted suffixes -/

theorem getLastD_concat (a : String) : ∀ (l : List String) (d : String),
    (l ++ [a]).getLastD d = a
  | [], _ => rfl
  | x :: l, d => by
      rw [List.cons_append, List.getLastD_cons]
      exact getLastD_concat a l x

theorem levelIncluded_mem {ignored : List String} {rel : List String} {es : List Entry}
    {p : List String} (h : p ∈ levelIncluded ignored rel es) :
    ∃ f, f ∈ filesOf es ∧ keepFile ignored rel f = true ∧ p = rel ++ [f] := by
  simp only [levelIncluded, List.mem_map, List.mem_filter] at h
  obtain ⟨f, ⟨hmem, hkeep⟩, rfl⟩ := h
  exact ⟨f, hmem, hkeep, rfl⟩

theorem v1WalkDirs_allow {ignored : List String} (fuel : Nat) :
    ∀ {rootParts rel : List String} {es : List Entry} {p : List String},
    forestSize es ≤ fuel → p ∈ v1WalkDirs ignored rootParts rel es →
    allowlist.contains (pathSuffix (p.getLastD "")) = true := by
  induction fuel with
  | zero =>
      intro rootParts rel es p hsize hmem
      cases es with
      | nil => simp [v1WalkDirs] at hmem
      | cons e es =>
          exfalso
          have := V2.esize_pos e
          simp [forestSize] at hsize
          omega
  | succ n ih =>
      intro rootParts rel es p hsize hmem
      cases es with
      | nil => simp [v1WalkDirs] at hmem
      | cons e es =>
          have hes : forestSize es ≤ n := by
            have := V2.esize_pos e
            simp [forestSize] at hsize
            omega
          cases e with
          | file nm cnt =>
              simp only [v1WalkDirs] at hmem
              exact ih hes hmem
          | dir nm c =>
              have hcs : forestSize c ≤ n := by
                simp [forestSize, Entry.esize] at hsize
                omega
              simp only [v1WalkDirs, List.mem_append] at hmem
              rcases hmem with h1 | h2
              · by_cases hk : (!is_ignored (rootParts ++ rel ++ [nm]) ignored) = true
                · rw [if_pos hk, List.mem_append] at h1
                  rcases h1 with hf | hw
                  · obtain ⟨f, _, hkeepf, rfl⟩ := levelIncluded_mem hf
                    rw [getLastD_concat]
                    exact ((Bool.and_eq_true _ _).mp hkeepf).2
                  · exact ih hcs hw
                · rw [if_neg hk] at h1
                  simp at h1
              · exact ih hes h2

theorem included_files_allow {ignored rootParts : List String} {es : List Entry}
    {p : List String} (h : p ∈ included_files ignored rootParts es) :
    allowlist.contains (pathSuffix (p.getLastD "")) = true := by
  rw [included_files, List.mem_append] at h
  rcases h with hf | hw
  · obtain ⟨f, _, hkeepf, rfl⟩ := levelIncluded_mem hf
    rw [getLastD_concat]
    exact ((Bool.and_eq_true _ _).mp hkeepf).2
  · exact v1WalkDirs_allow (forestSize es) le_rfl hw

end V1

namespace V1

/-! ## `code_combiner.py`: rule loading and unguarded content reading -/

/-- One `ignored.add(line)` step of `get_ignored_paths` (guarded by
`if line and not line.startswith("#")`).  The Python `set` is modelled as a
duplicate-free list in insertion order: the only consumer is the `any(...)`
of `is_ignored`, for which membership alone matters, so the unspecified
iteration order of the set is irrelevant — but duplicates collapse and no
multiplicity survives. -/
def addRule (ignored : List String) (line : String) : List String :=
  if V2.keepLine (pyStrip line) = true ∧ pyStrip line ∉ ignored then
    ignored ++ [pyStrip line]
  else ignored

/-- `get_ignored_paths(gitignore_path)` of `code_combiner.py`: a missing
rules source yields the empty set, otherwise the stripped non-blank,
non-comment lines are added to a set. -/
def get_ignored_paths (contents : Option (List String)) : List String :=
  match contents with
  | none => []
  | some lines => lines.foldl addRule []

theorem addRule_mem (acc : List String) (l x : String) :
    x ∈ addRule acc l
      ↔ x ∈ acc ∨ (V2.keepLine (pyStrip l) = true ∧ x = pyStrip l) := by
  unfold addRule
  by_cases hk : V2.keepLine (pyStrip l) = true
  · by_cases hm : pyStrip l ∈ acc
    · rw [if_neg (by simp [hm])]
      constructor
      · intro h
        exact Or.inl h
      · rintro (h | ⟨_, rfl⟩)
        · exact h
        · exact hm
    · rw [if_pos ⟨hk, hm⟩]
      simp [hk]
  · rw [if_neg (fun h => hk h.1)]
    simp [hk]

theorem foldl_addRule_mem : ∀ (ls acc : List String) (x : String),
    x ∈ ls.foldl addRule acc ↔ x ∈ acc ∨ x ∈ (ls.map pyStrip).filter V2.keepLine := by
  intro ls
  induction ls with
  | nil =>
      intro acc x
      simp
  | cons l ls ih =>
      intro acc x
      rw [List.foldl_cons, ih, addRule_mem, List.map_cons, List.filter_cons]
      by_cases hk : V2.keepLine (pyStrip l) = true
      · rw [if_pos (by simpa using hk)]
        simp only [List.mem_cons, hk, true_and]
        tauto
      · rw [if_neg (by simpa using hk)]
        simp [hk]

theorem addRule_nodup {acc : List String} (h : acc.Nodup) (l : String) :
    (addRule acc l).Nodup := by
  unfold addRule
  by_cases hc : V2.keepLine (pyStrip l) = true ∧ pyStrip l ∉ acc
  · rw [if_pos hc]
    simp [List.nodup_append, h, hc.2]
  · rw [if_neg hc]
    exact h

theorem foldl_addRule_nodup : ∀ (ls acc : List String), acc.Nodup →
    (ls.foldl addRule acc).Nodup := by
  intro ls
  induction ls with
  | nil =>
      intro acc h
      exact h
  | cons l ls ih =>
      intro acc h
      rw [List.foldl_cons]
      exact ih _ (addRule_nodup h l)

/-- The content pass of `concatenate_code_files` (lines 55-58 of
`code_combiner.py`) over the included files, in manifest order: for each
file, three blank lines, a `### File:` header and the file's text.  The
`open` is unguarded — `errors="ignore"` suppresses only decode errors — so
an oracle `.error e` (an `OSError` raised by `open`) propagates and aborts
the whole assembly. -/
def contentBlocks (readF : String → Except String String) :
    List (List String) → Except String String
  | [] => Except.ok ""
  | p :: rest =>
      match readF (renderPath p) with
      | Except.error e => Except.error e
      | Except.ok content =>
          match contentBlocks readF rest with
          | Except.error e => Except.error e
          | Except.ok restText =>
              Except.ok ("\n\n\n" ++ "### File: " ++ renderPath p ++ "\n"
                ++ content ++ restText)

theorem contentBlocks_abort {readF : String → Except String String} :
    ∀ (xs : List (List String)) (p : List String) (e : String)
      (ys : List (List String)),
    xs.all (fun q => (readF (renderPath q)).isOk) = true →
    readF (renderPath p) = Except.error e →
    contentBlocks readF (xs ++ p :: ys) = Except.error e := by
  intro xs
  induction xs with
  | nil =>
      intro p e ys _ hp
      rw [List.nil_append]
      simp [contentBlocks, hp]
  | cons q xs ih =>
      intro p e ys hall hp
      rw [List.cons_append]
      rw [List.all_cons, Bool.and_eq_true] at hall
      cases hr : readF (renderPath q) with
      | error e' =>
          exfalso
          have h1 := hall.1
          rw [hr] at h1
          simp [Except.isOk, Except.toBool] at h1
      | ok c =>
          have htail := ih p e ys hall.2 hp
          simp [contentBlocks, hr, htail]

/-- For a listing consisting only of files, the `os.walk` recursion of
`concatenate_code_files` contributes nothing: the manifest is exactly the
filtered root listing, in listing order. -/
theorem v1WalkDirs_files {ignored rootParts : List String} :
    ∀ (rel : List String) (es : List Entry), es.all (fun e => !e.isDir) = true →
    v1WalkDirs ignored rootParts rel es = [] := by
  intro rel es
  induction es with
  | nil =>
      intro _
      simp [v1WalkDirs]
  | cons e es ih =>
      intro hall
      rw [List.all_cons, Bool.and_eq_true] at hall
      cases e with
      | file nm c =>
          simp only [v1WalkDirs]
          exact ih hall.2
      | dir nm c =>
          exfalso
          have := hall.1
          simp [Entry.isDir] at this

end V1

/-! ## The claims -/

/-- Claim C1: a directory whose relative path is excluded is pruned, never
descended into.  Formally: (1) all outputs of `code_combiner_02.py` are
invariant under arbitrary replacement of the contents of pruned directories
(`SimilarForest` relates two forests that agree except beneath directories
failing the filter), so nothing nested under an excluded directory can
appear in the tree, the manifest or the content section; (2) the same holds
for the manifest and combined content assembled by `main`; (3) every
collected path consists solely of segments that passed the filter at their
own level, so no collected file lies below an excluded directory. -/
theorem claim_C1 :
    (∀ (pats : List String) (es es' : List Entry) (pre : String),
      V2.SimilarForest pats [] es es' →
        V2.generate_tree_lines pats [] pre es = V2.generate_tree_lines pats [] pre es'
        ∧ V2.get_all_files pats [] es = V2.get_all_files pats [] es')
    ∧ (∀ (patterns : List String) (readF : String → Except String String)
        (es es' : List Entry),
      V2.SimilarForest (V2.effectivePatterns patterns) [] es es' →
        V2.manifestOf patterns es = V2.manifestOf patterns es'
        ∧ V2.combinedOf readF patterns es = V2.combinedOf readF patterns es')
    ∧ (∀ (pats : List String) (es : List Entry) (p : List String),
      p ∈ V2.get_all_files pats [] es →
        ∀ (k : Nat) (hk : k < p.length),
          V2.keepName pats (p.take k) (p.get ⟨k, hk⟩) = true) := by
  refine ⟨?_, ?_, ?_⟩
  · intro pats es es' pre h
    exact ⟨V2.generate_tree_lines_similar h pre, V2.get_all_files_similar h⟩
  · intro patterns readF es es' h
    have hw := V2.get_all_files_similar h
    constructor
    · rw [V2.manifestOf, V2.manifestOf, hw]
    · rw [V2.combinedOf, V2.combinedOf, hw]
  · intro pats es p hmem k hk
    obtain ⟨s, _, hp, hok⟩ := V2.get_all_files_mem hmem
    rw [List.nil_append] at hp
    subst hp
    simpa using hok k hk

/-- Witness for C1 at a concrete input: with rule `build/`, the forest with
`build/x.py` inside `build` is similar to the one with `build` emptied, and
both traversal outputs agree on the two forests. -/
theorem claim_C1_witness :
    V2.SimilarForest (V2.effectivePatterns ["build/"]) []
      [Entry.dir "build" [Entry.file "x.py" "X"], Entry.file "a.py" "A"]
      [Entry.dir "build" [], Entry.file "a.py" "A"]
    ∧ V2.generate_tree_lines (V2.effectivePatterns ["build/"]) [] ""
        [Entry.dir "build" [Entry.file "x.py" "X"], Entry.file "a.py" "A"]
      = V2.generate_tree_lines (V2.effectivePatterns ["build/"]) [] ""
        [Entry.dir "build" [], Entry.file "a.py" "A"]
    ∧ V2.get_all_files (V2.effectivePatterns ["build/"]) []
        [Entry.dir "build" [Entry.file "x.py" "X"], Entry.file "a.py" "A"]
      = V2.get_all_files (V2.effectivePatterns ["build/"]) []
        [Entry.dir "build" [], Entry.file "a.py" "A"] := by
  have hsim : V2.SimilarForest (V2.effectivePatterns ["build/"]) []
      [Entry.dir "build" [Entry.file "x.py" "X"], Entry.file "a.py" "A"]
      [Entry.dir "build" [], Entry.file "a.py" "A"] :=
    .cons (.dirPruned [] "build" _ _ (by decide))
      (.cons (.file [] "a.py" "A") (.nil []))
  exact ⟨hsim, (claim_C1.1 _ _ _ "" hsim).1, (claim_C1.1 _ _ _ "" hsim).2⟩

/-- Claim C2: any relative path with a segment beginning with `.` is
excluded whatever the loaded rules: `code_combiner.py`'s `is_ignored`
returns true directly, and in `code_combiner_02.py` (where the hidden test
is applied to each name at its own level) no collected path ever contains a
hidden segment. -/
theorem claim_C2 :
    (∀ (parts ignored : List String),
      parts.any (fun part => pyStartsWith part ".") = true →
      V1.is_ignored parts ignored = true)
    ∧ (∀ (patterns : List String) (es : List Entry) (p : List String),
      p ∈ V2.get_all_files patterns [] es → ∀ seg ∈ p, pyStartsWith seg "." = false) := by
  constructor
  · intro parts ignored h
    unfold V1.is_ignored
    rw [h]
    simp
  · intro patterns es p h
    exact V2.get_all_files_no_hidden h

/-- Witness for C2 at concrete inputs: the hidden path `a/.b/c.py` is
excluded under the empty rule set, and a collected path has no hidden
segment. -/
theorem claim_C2_witness :
    V1.is_ignored ["a", ".b", "c.py"] [] = true
    ∧ (["a.py"] ∈ V2.get_all_files [] [] [Entry.file "a.py" "A"])
    ∧ pyStartsWith "a.py" "." = false := by
  refine ⟨claim_C2.1 ["a", ".b", "c.py"] [] (by decide), ?_, ?_⟩
  · exact List.mem_append_left _ (by decide)
  · exact claim_C2.2 [] [Entry.file "a.py" "A"] ["a.py"]
      (List.mem_append_left _ (by decide)) "a.py" (by decide)

/-- Counterexample to C3 as stated: `generate_tree_lines` of
`code_combiner_02.py` sorts a level purely lexicographically by name, so
the file `a.txt` is rendered before the directory `b` — subdirectories do
not come first.  `V2.prepare` is the exact surviving-entry order the
renderer walks. -/
theorem claim_C3_counterexample :
    V2.prepare [] [] [Entry.dir "b" [], Entry.file "a.txt" "x"]
      = [Entry.file "a.txt" "x", Entry.dir "b" []]
    ∧ (Entry.file "a.txt" "x").isFile = true
    ∧ (Entry.dir "b" []).isFile = false
    ∧ V2.generate_tree_lines [] [] "" [Entry.dir "b" [], Entry.file "a.txt" "x"]
      = ["├── a.txt", "└── b"] := by
  refine ⟨rfl, rfl, rfl, ?_⟩
  have h₁ : V2.prepare [] [] [Entry.dir "b" [], Entry.file "a.txt" "x"]
      = [Entry.file "a.txt" "x", Entry.dir "b" []] := rfl
  have h₂ : V2.prepare [] ["b"] ([] : List Entry) = [] := rfl
  simp [V2.generate_tree_lines, h₁, h₂, V2.renderLevel, Entry.name, Entry.isDir,
    Entry.children]

/-- Claim C3 amended: only `code_combiner.py`'s `generate_folder_map`
orders a level with directories before files and lexicographically inside
each group (its sort key is `(is_file, name)`); `code_combiner_02.py`'s
`generate_tree_lines` instead orders the surviving entries of a level
purely lexicographically by name, files and directories interleaved. -/
theorem claim_C3 :
    (∀ (es : List Entry),
      List.Pairwise (fun a b : Entry =>
          ¬(a.isFile = true ∧ b.isFile = false)
          ∧ (a.isFile = b.isFile → pyStrLe a.name b.name = true))
        (List.insertionSort V1.sortKeyR es)
      ∧ (List.insertionSort V1.sortKeyR es).Perm es)
    ∧ (∀ (ignored rel : List String) (es : List Entry),
      List.Pairwise V1.sortKeyR (V1.levelEntries ignored rel es))
    ∧ (∀ (patterns rel : List String) (es : List Entry),
      List.Pairwise V2.nameLe (V2.prepare patterns rel es)) := by
  refine ⟨?_, ?_, ?_⟩
  · intro es
    constructor
    · refine (List.sorted_insertionSort V1.sortKeyR es).imp ?_
      intro a b h
      unfold V1.sortKeyR V1.sortKeyLe at h
      cases ha : a.isFile <;> cases hb : b.isFile <;> simp [ha, hb] at h ⊢ <;> exact h
    · exact List.perm_insertionSort V1.sortKeyR es
  · intro ignored rel es
    exact List.sorted_insertionSort V1.sortKeyR _
  · intro patterns rel es
    exact List.Pairwise.filter _ (List.sorted_insertionSort V2.nameLe es)

/-- Counterexample to C4 as stated: `code_combiner_02.py` applies no
extension allowlist — the file `data.bin`, which passes the pattern filter
and the hidden-name rule but whose suffix `.bin` is not allowlisted, still
lands in the manifest (and hence in the content section, which is driven by
the same list). -/
theorem claim_C4_counterexample :
    V2.manifestOf [] [Entry.file "data.bin" "01"] = ["data.bin"]
    ∧ V1.allowlist.contains (V1.pathSuffix "data.bin") = false := by
  constructor
  · have hw : V2.get_all_files (V2.effectivePatterns []) [] [Entry.file "data.bin" "01"]
        = [["data.bin"]] := by
      simp [V2.get_all_files, V2.walkDirs, V2.levelFiles, filesOf]
      decide
    rw [V2.manifestOf, hw]
    decide
  · decide

/-- Claim C4 amended: only `code_combiner.py` applies the fixed extension
allowlist `{.py, .js, .java, .html, .css}`: every path in its manifest (and
content pass, which appends blocks in lockstep with the manifest) has an
allowlisted suffix, while its visual tree still shows a passing
non-allowlisted file; `code_combiner_02.py` includes every file that passes
the pattern filter and hidden-name rule, with no extension filtering. -/
theorem claim_C4 :
    (∀ (ignored rootParts : List String) (es : List Entry) (p : List String),
      p ∈ V1.included_files ignored rootParts es →
      V1.allowlist.contains (V1.pathSuffix (p.getLastD "")) = true)
    ∧ V1.generate_folder_map [] [Entry.file "data.bin" "01"] = ["└── data.bin"]
    ∧ V1.included_files [] [] [Entry.file "data.bin" "01"] = []
    ∧ (∀ (patterns rel : List String) (es : List Entry) (f : String),
      f ∈ filesOf es → V2.keepName patterns rel f = true →
      (rel ++ [f]) ∈ V2.get_all_files patterns rel es) := by
  refine ⟨fun _ _ _ _ h => V1.included_files_allow h, ?_, ?_, ?_⟩
  · have h₁ : V1.levelEntries [] [] [Entry.file "data.bin" "01"]
        = [Entry.file "data.bin" "01"] := rfl
    simp [V1.generate_folder_map, h₁, V1.tree, Entry.name, Entry.isDir]
  · simp [V1.included_files, V1.v1WalkDirs, V1.levelIncluded, filesOf]
    decide
  · intro patterns rel es f hf hk
    exact V2.get_all_files_top_mem hf hk

/-- Witness for C4 at concrete inputs: `m.py` is in the v1 manifest and has
an allowlisted suffix; `a.py` passes the v2 filter and is collected. -/
theorem claim_C4_witness :
    (["m.py"] ∈ V1.included_files [] [] [Entry.file "m.py" "pass"])
    ∧ V1.allowlist.contains (V1.pathSuffix ((["m.py"] : List String).getLastD "")) = true
    ∧ "a.py" ∈ filesOf [Entry.file "a.py" "A"]
    ∧ V2.keepName [] [] "a.py" = true
    ∧ (([] : List String) ++ ["a.py"]) ∈ V2.get_all_files [] [] [Entry.file "a.py" "A"] := by
  have hmem : ["m.py"] ∈ V1.included_files [] [] [Entry.file "m.py" "pass"] :=
    List.mem_append_left _ (by decide)
  exact ⟨hmem, claim_C4.1 [] [] _ _ hmem, by decide, by decide,
    claim_C4.2.2.2 [] [] [Entry.file "a.py" "A"] "a.py" (by decide) (by decide)⟩

/-- Counterexample to C5 as stated: `concatenate_code_files` of
`code_combiner.py` appends to `included_files` in `os.walk` listing order
and never sorts, so a root listing that yields `b.py` before `a.py`
produces the manifest `b.py, a.py`, which is not in lexicographic order. -/
theorem claim_C5_counterexample :
    (V1.included_files [] [] [Entry.file "b.py" "B", Entry.file "a.py" "A"]).map renderPath
      = ["b.py", "a.py"]
    ∧ ¬ List.Sorted pyLeR ["b.py", "a.py"] := by
  constructor
  · rw [V1.included_files, V1.v1WalkDirs_files [] _ (by decide), List.append_nil]
    decide
  · decide

/-- Claim C5 amended: only `code_combiner_02.py` sorts the manifest:
there it is the collected file list sorted lexicographically by full
relative path (sorted and a permutation of the collected paths), the given
concrete example sorts as stated, and the content blocks are concatenated
in exactly the manifest order (`combine_files` emits the blocks of the
sorted list in order).  `code_combiner.py` instead emits manifest and
content in `os.walk` traversal order without sorting: for a flat listing
its manifest is exactly the filtered listing in listing order. -/
theorem claim_C5 :
    (∀ (patterns : List String) (es : List Entry),
      List.Sorted pyLeR (V2.manifestOf patterns es)
      ∧ (V2.manifestOf patterns es).Perm
          ((V2.get_all_files (V2.effectivePatterns patterns) [] es).map renderPath))
    ∧ pySorted ["b.py", "a.py", "c/a.py"] = ["a.py", "b.py", "c/a.py"]
    ∧ (∀ (readF : String → Except String String) (l : List String),
      V2.combine_files readF l = V2.blocksText readF (pySorted l))
    ∧ (∀ (readF : String → Except String String) (patterns : List String)
        (es : List Entry),
      V2.combinedOf readF patterns es = V2.blocksText readF (V2.manifestOf patterns es))
    ∧ (∀ (ignored rootParts : List String) (es : List Entry),
      es.all (fun e => !e.isDir) = true →
      V1.included_files ignored rootParts es
        = ((filesOf es).filter (fun f => V1.keepFile ignored [] f)).map
            (fun f => ([f] : List String))) := by
  refine ⟨?_, by decide, V2.combine_files_eq, ?_, ?_⟩
  · intro patterns es
    exact ⟨List.sorted_insertionSort pyLeR _, List.perm_insertionSort pyLeR _⟩
  · intro readF patterns es
    rw [V2.combinedOf, V2.combine_files_eq, V2.manifestOf]
  · intro ignored rootParts es hall
    rw [V1.included_files, V1.v1WalkDirs_files [] es hall, List.append_nil]
    simp [V1.levelIncluded]

/-- Witness for C5 at a concrete input: a flat listing `b.py, a.py`, whose
v1 manifest is the filtered listing in listing order. -/
theorem claim_C5_witness :
    ([Entry.file "b.py" "B", Entry.file "a.py" "A"].all (fun e => !e.isDir)) = true
    ∧ V1.included_files [] [] [Entry.file "b.py" "B", Entry.file "a.py" "A"]
      = ((filesOf [Entry.file "b.py" "B", Entry.file "a.py" "A"]).filter
          (fun f => V1.keepFile [] [] f)).map (fun f => ([f] : List String)) :=
  ⟨by decide, claim_C5.2.2.2.2 [] [] [Entry.file "b.py" "B", Entry.file "a.py" "A"]
    (by decide)⟩

/-- Counterexample to C6 as stated: after stripping, the folder rule falls
through to the glob test, so the rule `*tmp/` excludes the path `footmp`
although no segment of `footmp` equals the stripped rule `*tmp` — the
predicate does not exclude *exactly* the paths with a matching segment. -/
theorem claim_C6_counterexample :
    V2.is_ignored "footmp" ["*tmp/"] = true
    ∧ ((pySplitSlash "footmp").contains (pyRstripSlash "*tmp/")) = false := by
  constructor
  · decide
  · decide

/-- Claim C6 amended: for a rule ending with the separator, the predicate
strips the trailing separators and excludes a path iff the stripped rule
equals some segment of the path, or — by fall-through — the stripped rule,
read as a glob, matches the full path or its basename.  The two concrete
examples of the claim hold as stated. -/
theorem claim_C6 :
    (∀ (r path : String), pyEndsWith r "/" = true →
      (V2.is_ignored path [r] = true ↔
        ((pySplitSlash path).contains (pyRstripSlash r) = true
          ∨ fnmatchB path (pyRstripSlash r) = true
          ∨ fnmatchB (basename path) (pyRstripSlash r) = true)))
    ∧ V2.is_ignored "a/build/x.py" ["build/"] = true
    ∧ V2.is_ignored "a/buildx/x.py" ["build/"] = false := by
  refine ⟨?_, by decide, by decide⟩
  intro r path h
  simp [V2.is_ignored, V2.matchesPattern, h, Bool.or_eq_true, or_assoc]

/-- Witness for C6 at a concrete input: the rule `build/` ends with the
separator and the characterisation applies to `a/build/x.py`. -/
theorem claim_C6_witness :
    pyEndsWith "build/" "/" = true
    ∧ (V2.is_ignored "a/build/x.py" ["build/"] = true ↔
        ((pySplitSlash "a/build/x.py").contains (pyRstripSlash "build/") = true
          ∨ fnmatchB "a/build/x.py" (pyRstripSlash "build/") = true
          ∨ fnmatchB (basename "a/build/x.py") (pyRstripSlash "build/") = true)) :=
  ⟨by decide, claim_C6.1 "build/" "a/build/x.py" (by decide)⟩

/-- Counterexample to C7 as stated: in `code_combiner.py`'s `is_ignored`
(also cited by the claim), a glob matching the full rendered relative path
does not exclude: `PurePath.match` only glob-matches trailing segments, so
rule `logs*` matches the full path `logs/app.log` under `fnmatch` yet
`code_combiner.py` does not exclude that path. -/
theorem claim_C7_counterexample :
    ("logs*" ∈ ["logs*"])
    ∧ pyEndsWith "logs*" "/" = false
    ∧ fnmatchB "logs/app.log" "logs*" = true
    ∧ V1.is_ignored ["logs", "app.log"] ["logs*"] = false := by
  refine ⟨by decide, by decide, by decide, by decide⟩

/-- Claim C7 amended: only in `code_combiner_02.py` does a rule not ending
with the separator exclude every path whose full rendered relative path or
basename it glob-matches — in particular `*.log` excludes both `app.log`
and `logs/app.log`.  In `code_combiner.py` such a rule excludes a path
exactly when `PurePath.match` succeeds (the rule's segments glob-match the
path's trailing segments), the rule equals one of the path's segments, or
the path has a hidden segment; a glob match against the full rendered path
alone does not exclude there. -/
theorem claim_C7 :
    (∀ (patterns : List String) (r path : String), r ∈ patterns →
      pyEndsWith r "/" = false →
      (fnmatchB path r || fnmatchB (basename path) r) = true →
      V2.is_ignored path patterns = true)
    ∧ V2.is_ignored "app.log" ["*.log"] = true
    ∧ V2.is_ignored "logs/app.log" ["*.log"] = true
    ∧ (∀ (parts : List String) (r : String),
      V1.is_ignored parts [r] = true ↔
        (V1.pathMatch parts r = true ∨ parts.contains r = true
          ∨ parts.any (fun part => pyStartsWith part ".") = true)) := by
  refine ⟨?_, by decide, by decide, ?_⟩
  · intro patterns r path hmem hend hmatch
    unfold V2.is_ignored
    rw [List.any_eq_true]
    refine ⟨r, hmem, ?_⟩
    unfold V2.matchesPattern
    rw [if_neg (by simp [hend])]
    exact hmatch
  · intro parts r
    simp [V1.is_ignored, Bool.or_eq_true, or_assoc]

/-- Witness for C7 at a concrete input: the glob rule `*.py` excludes
`x.py`. -/
theorem claim_C7_witness :
    ("*.py" ∈ ["*.py"])
    ∧ pyEndsWith "*.py" "/" = false
    ∧ (fnmatchB "x.py" "*.py" || fnmatchB (basename "x.py") "*.py") = true
    ∧ V2.is_ignored "x.py" ["*.py"] = true :=
  ⟨by decide, by decide, by decide,
    claim_C7.1 ["*.py"] "*.py" "x.py" (by decide) (by decide) (by decide)⟩

/-- Counterexample to C8 as stated: in `code_combiner.py` the content loop
opens each included file with no `try`/`except` (`errors="ignore"` only
suppresses decode errors), so an open failure aborts the whole assembly:
with `bad.py` unreadable, no inline error marker is produced and the block
of the subsequent readable file `ok.py` is lost, although alone `ok.py`
would have produced a block. -/
theorem claim_C8_counterexample :
    V1.contentBlocks
      (fun s => if s = "bad.py" then Except.error "boom" else Except.ok "X")
      [["bad.py"], ["ok.py"]] = Except.error "boom"
    ∧ V1.contentBlocks
      (fun s => if s = "bad.py" then Except.error "boom" else Except.ok "X")
      [["ok.py"]] = Except.ok "\n\n\n### File: ok.py\nX" := by
  constructor
  · rfl
  · rfl

/-- Claim C8 amended: only `code_combiner_02.py` recovers from a failed
read: the failed file contributes its header followed by an inline
error-marker line instead of content, and the blocks of all files before
and after it in manifest order are still emitted unchanged — its
`combine_files` is the total fold of the blocks over the sorted list.  In
`code_combiner.py` the `open` is unguarded, so an open failure propagates
and aborts the entire content assembly with the raised error, emitting no
marker and no subsequent blocks. -/
theorem claim_C8 :
    (∀ (readF : String → Except String String) (p e : String) (xs ys l : List String),
      readF p = Except.error e →
      V2.fileBlock readF p
        = "\n# File: " ++ p ++ "\n" ++ ("# [Error reading file: " ++ e ++ "]\n")
      ∧ V2.blocksText readF (xs ++ p :: ys)
        = V2.blocksText readF xs ++ V2.fileBlock readF p ++ V2.blocksText readF ys
      ∧ V2.combine_files readF l = V2.blocksText readF (pySorted l))
    ∧ (∀ (readF : String → Except String String) (xs : List (List String))
        (p : List String) (e : String) (ys : List (List String)),
      xs.all (fun q => (readF (renderPath q)).isOk) = true →
      readF (renderPath p) = Except.error e →
      V1.contentBlocks readF (xs ++ p :: ys) = Except.error e) := by
  constructor
  · intro readF p e xs ys l h
    refine ⟨?_, ?_, V2.combine_files_eq readF l⟩
    · unfold V2.fileBlock
      rw [h]
    · have hsingle : V2.blocksText readF [p] = V2.fileBlock readF p := by
        unfold V2.blocksText
        simp
      rw [show xs ++ p :: ys = xs ++ [p] ++ ys by simp, V2.blocksText_append,
        V2.blocksText_append, hsingle]
  · intro readF xs p e ys hall hp
    exact V1.contentBlocks_abort xs p e ys hall hp

/-- Witness for C8 at concrete inputs: a v2 reader that always fails with
message `boom`, and a v1 reader failing exactly on `b.py` after the
readable `a.py`. -/
theorem claim_C8_witness :
    ((fun _ => (Except.error "boom" : Except String String)) "b.py"
      = Except.error "boom")
    ∧ V2.fileBlock (fun _ => Except.error "boom") "b.py"
      = "\n# File: " ++ "b.py" ++ "\n" ++ ("# [Error reading file: " ++ "boom" ++ "]\n")
    ∧ V2.blocksText (fun _ => Except.error "boom") (["a.py"] ++ "b.py" :: ["c.py"])
      = V2.blocksText (fun _ => Except.error "boom") ["a.py"]
        ++ V2.fileBlock (fun _ => Except.error "boom") "b.py"
        ++ V2.blocksText (fun _ => Except.error "boom") ["c.py"]
    ∧ V2.combine_files (fun _ => Except.error "boom") ["b.py", "a.py"]
      = V2.blocksText (fun _ => Except.error "boom") (pySorted ["b.py", "a.py"])
    ∧ ([["a.py"]] : List (List String)).all
        (fun q => (((fun s => if s = "b.py" then Except.error "boom" else Except.ok "X")
          : String → Except String String) (renderPath q)).isOk) = true
    ∧ ((fun s => if s = "b.py" then Except.error "boom" else Except.ok "X")
        : String → Except String String) (renderPath ["b.py"]) = Except.error "boom"
    ∧ V1.contentBlocks
        (fun s => if s = "b.py" then Except.error "boom" else Except.ok "X")
        ([["a.py"]] ++ ["b.py"] :: [["c.py"]]) = Except.error "boom" := by
  have h := claim_C8.1 (fun _ => Except.error "boom") "b.py" "boom" ["a.py"] ["c.py"]
    ["b.py", "a.py"] rfl
  have h2 := claim_C8.2 (fun s => if s = "b.py" then Except.error "boom" else Except.ok "X")
    [["a.py"]] ["b.py"] "boom" [["c.py"]] (by decide) rfl
  exact ⟨rfl, h.1, h.2.1, h.2.2, by decide, rfl, h2⟩

/-- Counterexample to C9 as stated: `get_ignored_paths` of
`code_combiner.py` collects the rules into a Python `set`, so duplicate
lines collapse — loading the two-line source `x`, `x` yields a single
rule, not the two stripped non-blank lines in order of appearance. -/
theorem claim_C9_counterexample :
    V1.get_ignored_paths (some ["x", "x"]) = ["x"]
    ∧ ((["x", "x"].map pyStrip).filter V2.keepLine) = ["x", "x"]
    ∧ (["x"] : List String) ≠ ["x", "x"] := by
  refine ⟨rfl, by decide, by decide⟩

/-- Claim C9 amended: `code_combiner_02.py`'s `load_gitignore` yields
exactly the stripped non-blank lines that do not begin with `#`, in order
of appearance, and a missing rules source loads as the empty rule set;
`code_combiner.py`'s `get_ignored_paths` instead collects those same lines
into a set — the loaded rule set has exactly their membership but no
duplicates and no retained order — and likewise yields the empty set for a
missing source. -/
theorem claim_C9 :
    V2.load_gitignore none = []
    ∧ (∀ (lines : List String),
      V2.load_gitignore (some lines) = (lines.map pyStrip).filter V2.keepLine)
    ∧ V1.get_ignored_paths none = []
    ∧ (∀ (lines : List String) (x : String),
      x ∈ V1.get_ignored_paths (some lines)
        ↔ x ∈ (lines.map pyStrip).filter V2.keepLine)
    ∧ (∀ (lines : List String), (V1.get_ignored_paths (some lines)).Nodup) := by
  refine ⟨rfl, V2.load_gitignore_some, rfl, ?_, ?_⟩
  · intro lines x
    rw [V1.get_ignored_paths]
    simpa using V1.foldl_addRule_mem lines [] x
  · intro lines
    rw [V1.get_ignored_paths]
    exact V1.foldl_addRule_nodup lines [] List.nodup_nil

/-- Claim C10: `main` of `code_combiner_02.py` appends the output folder
name to the loaded patterns when absent; consequently the name never passes
the traversal filter anywhere, a directory named `output_code_combiner` is
dropped from the collection walk wherever it sits in a listing, the tree is
insensitive to that directory's contents, and so are the manifest and the
combined content. -/
theorem claim_C10 :
    (∀ (patterns : List String), V2.output_folder ∈ V2.effectivePatterns patterns)
    ∧ (∀ (patterns rel : List String),
      V2.keepName (V2.effectivePatterns patterns) rel V2.output_folder = false)
    ∧ (∀ (patterns rel : List String) (c : List Entry) (l₁ l₂ : List Entry),
      V2.get_all_files (V2.effectivePatterns patterns) rel
          (l₁ ++ Entry.dir V2.output_folder c :: l₂)
        = V2.get_all_files (V2.effectivePatterns patterns) rel (l₁ ++ l₂))
    ∧ (∀ (patterns rel : List String) (pre : String) (c : List Entry)
        (l₁ l₂ : List Entry),
      V2.generate_tree_lines (V2.effectivePatterns patterns) rel pre
          (l₁ ++ Entry.dir V2.output_folder c :: l₂)
        = V2.generate_tree_lines (V2.effectivePatterns patterns) rel pre
          (l₁ ++ Entry.dir V2.output_folder [] :: l₂))
    ∧ (∀ (patterns : List String) (readF : String → Except String String)
        (c : List Entry) (l₁ l₂ : List Entry),
      V2.manifestOf patterns (l₁ ++ Entry.dir V2.output_folder c :: l₂)
        = V2.manifestOf patterns (l₁ ++ l₂)
      ∧ V2.combinedOf readF patterns (l₁ ++ Entry.dir V2.output_folder c :: l₂)
        = V2.combinedOf readF patterns (l₁ ++ l₂)) := by
  refine ⟨V2.output_folder_mem_eff, V2.keepName_out, ?_, ?_, ?_⟩
  · intro patterns rel c l₁ l₂
    exact V2.get_all_files_drop (V2.keepName_out patterns rel) l₁ l₂
  · intro patterns rel pre c l₁ l₂
    apply V2.generate_tree_lines_similar
    exact V2.similarForest_append (V2.similarForest_refl _ _ _)
      (.cons (.dirPruned rel _ _ _ (V2.keepName_out patterns rel))
        (V2.similarForest_refl _ _ _))
  · intro patterns readF c l₁ l₂
    have hw := V2.get_all_files_drop (V2.keepName_out patterns []) l₁ l₂ (c := c)
    constructor
    · rw [V2.manifestOf, V2.manifestOf, hw]
    · rw [V2.combinedOf, V2.combinedOf, hw]
